import Mathlib

/-!
Verification of the MIR body / phase / location layer of this repository
(compiler/rustc_middle/src/mir/mod.rs) against its specification.

The Rust code is shallowly embedded: machine integers become Nat, IndexVec
becomes List, panics and fatal errors become Option results, and the
stateful splicing loop of expand_statements becomes explicit state passing
with a structurally decreasing iteration count.
-/

set_option maxHeartbeats 1000000

namespace Mir

/-- ASCII lowercasing of one character, mirroring char::to_ascii_lowercase:
code points 65 to 90 (ascii uppercase) are shifted up by 32. -/
def asciiLowerChar (c : Char) : Char :=
  if 65 ≤ c.toNat ∧ c.toNat ≤ 90 then Char.ofNat (c.toNat + 32) else c

/-- ASCII lowercasing of a string, mirroring str::to_ascii_lowercase. -/
def asciiLower (s : String) : String :=
  ⟨s.data.map asciiLowerChar⟩

/-- Modelled from the spec: the AnalysisPhase enum (variants Initial and
PostCleanup, in this order) is declared in the MIR syntax module, which is
not among the sources here; the spec fixes the variant list and order. -/
inductive AnalysisPhase
  | Initial
  | PostCleanup
deriving DecidableEq

/-- Discriminant of AnalysisPhase, as used by the cast to usize. -/
def AnalysisPhase.discr : AnalysisPhase → Nat
  | .Initial => 0
  | .PostCleanup => 1

/-- Modelled from the spec: the RuntimePhase enum (variants Initial,
PostCleanup, Optimized, in this order) is declared in the MIR syntax module,
which is not among the sources here. -/
inductive RuntimePhase
  | Initial
  | PostCleanup
  | Optimized
deriving DecidableEq

/-- Discriminant of RuntimePhase, as used by the cast to usize. -/
def RuntimePhase.discr : RuntimePhase → Nat
  | .Initial => 0
  | .PostCleanup => 1
  | .Optimized => 2

/-- Modelled from the spec: the MirPhase enum (Built, Analysis, Runtime, in
this order) is declared in the MIR syntax module, which is not among the
sources here. -/
inductive MirPhase
  | Built
  | Analysis (p : AnalysisPhase)
  | Runtime (p : RuntimePhase)
deriving DecidableEq

def BUILT_PHASE_COUNT : Nat := 1

def ANALYSIS_PHASE_COUNT : Nat := 2

/-- MirPhase::phase_index, translated from the source. -/
def MirPhase.phase_index : MirPhase → Nat
  | .Built => 1
  | .Analysis analysis_phase => 1 + BUILT_PHASE_COUNT + analysis_phase.discr
  | .Runtime runtime_phase =>
      1 + BUILT_PHASE_COUNT + ANALYSIS_PHASE_COUNT + runtime_phase.discr

/-- Modelled from the spec: the derived ordering on MirPhase lives with the
enum declaration in the syntax module; the spec states that phase_index is
the dense integer used anywhere two phases must be compared. -/
def MirPhase.lt (a b : MirPhase) : Prop :=
  a.phase_index < b.phase_index

instance : Decidable (MirPhase.lt a b) := by
  unfold MirPhase.lt
  infer_instance

/-- AnalysisPhase::parse; the fatal bug! on unknown text becomes none. -/
def AnalysisPhase.parse (phase : Option String) : Option AnalysisPhase :=
  match phase with
  | none => some .Initial
  | some phase =>
    match asciiLower phase with
    | "initial" => some .Initial
    | "post_cleanup" | "post-cleanup" | "postcleanup" => some .PostCleanup
    | _ => none

/-- RuntimePhase::parse; the fatal bug! on unknown text becomes none. -/
def RuntimePhase.parse (phase : Option String) : Option RuntimePhase :=
  match phase with
  | none => some .Initial
  | some phase =>
    match asciiLower phase with
    | "initial" => some .Initial
    | "post_cleanup" | "post-cleanup" | "postcleanup" => some .PostCleanup
    | "optimized" => some .Optimized
    | _ => none

/-- MirPhase::parse; the assert refusing a phase suffix for Built and the
fatal bug! on an unknown dialect both become none. -/
def MirPhase.parse (dialect : String) (phase : Option String) : Option MirPhase :=
  match asciiLower dialect with
  | "built" => if phase.isNone then some .Built else none
  | "analysis" => (AnalysisPhase.parse phase).map .Analysis
  | "runtime" => (RuntimePhase.parse phase).map .Runtime
  | _ => none

/-! ### ClearCrossCrate and its serialized form -/

inductive ClearCrossCrate (T : Type)
  | Clear
  | Set (v : T)
deriving DecidableEq

def TAG_CLEAR_CROSS_CRATE_CLEAR : Nat := 0

def TAG_CLEAR_CROSS_CRATE_SET : Nat := 1

/-- The Encodable impl for ClearCrossCrate. The encoder is abstracted to its
CLEAR_CROSS_CRATE flag plus the byte stream it produces; the payload encoder
for T is a parameter. Bytes are Nats. -/
def ClearCrossCrate.encode (clear_cross_crate : Bool) (encT : T → List Nat) :
    ClearCrossCrate T → List Nat
  | v =>
    if clear_cross_crate then []
    else
      match v with
      | .Clear => [TAG_CLEAR_CROSS_CRATE_CLEAR]
      | .Set val => TAG_CLEAR_CROSS_CRATE_SET :: encT val

/-- The Decodable impl for ClearCrossCrate. Reading a byte from an empty
stream, or an invalid tag (panic), become none. -/
def ClearCrossCrate.decode (clear_cross_crate : Bool)
    (decT : List Nat → Option (T × List Nat)) (bytes : List Nat) :
    Option (ClearCrossCrate T × List Nat) :=
  if clear_cross_crate then some (.Clear, bytes)
  else
    match bytes with
    | [] => none
    | discr :: rest =>
      if discr = TAG_CLEAR_CROSS_CRATE_CLEAR then some (.Clear, rest)
      else if discr = TAG_CLEAR_CROSS_CRATE_SET then
        (decT rest).map (fun p => (.Set p.1, p.2))
      else none

/-! ### Source positions, statements, terminators, blocks -/

abbrev Span := Nat

def DUMMY_SP : Span := 0

abbrev SourceScope := Nat

def OUTERMOST_SOURCE_SCOPE : SourceScope := 0

structure SourceInfo where
  span : Span
  scope : SourceScope
deriving DecidableEq

/-- SourceInfo::outermost. -/
def SourceInfo.outermost (span : Span) : SourceInfo :=
  { span := span, scope := OUTERMOST_SOURCE_SCOPE }

/-- Statement kinds, collapsed to Nop plus an abstract payload covering every
other kind (the kind enum is declared in the MIR syntax module); only Nop is
distinguished by the operations verified here. -/
inductive StatementKind (α : Type)
  | Nop
  | Other (payload : α)
deriving DecidableEq

structure Statement (α : Type) where
  source_info : SourceInfo
  kind : StatementKind α
deriving DecidableEq

/-- Modelled from the spec: Statement::make_nop (declared in the statement
module, not among the sources here) replaces a statement with a no-op in
place, keeping its position. -/
def Statement.make_nop (s : Statement α) : Statement α :=
  { s with kind := .Nop }

/-- Terminator, abstracted to its source_info and its successor edges.
Modelled from the spec: the kind enum lives in the terminator module; only
the terminator edges into other blocks matter for the predecessor graph. -/
structure Terminator where
  source_info : SourceInfo
  successors : List Nat
deriving DecidableEq

structure BasicBlockData (α : Type) where
  statements : List (Statement α)
  terminator : Option Terminator
  is_cleanup : Bool
deriving DecidableEq

/-! ### Locals -/

inductive Mutability
  | Not
  | Mut
deriving DecidableEq

/-- LocalDecl, with the externally defined field types (LocalInfo payload,
Ty, UserTypeProjections) abstracted to Unit. -/
structure LocalDecl where
  mutability : Mutability
  local_info : ClearCrossCrate Unit
  internal : Bool
  ty : Unit
  user_ty : Option Unit
  source_info : SourceInfo
deriving DecidableEq

/-- Classifies locals into categories; see Body::local_kind. -/
inductive LocalKind
  | Temp
  | Arg
  | ReturnPointer
deriving DecidableEq

/-! ### Body -/

structure Location where
  block : Nat
  statement_index : Nat
deriving DecidableEq

/-- The Body aggregate. Externally defined field types (MirSource, scope
data, debug info, constants, error guarantees) are abstracted to Unit. -/
structure Body (α : Type) where
  basic_blocks : List (BasicBlockData α)
  phase : MirPhase
  pass_count : Nat
  source : Unit
  source_scopes : List Unit
  generator : Option Unit
  local_decls : List LocalDecl
  user_type_annotations : List Unit
  arg_count : Nat
  spread_arg : Option Nat
  var_debug_info : List Unit
  span : Span
  required_consts : List Unit
  is_polymorphic : Bool
  injection_phase : Option MirPhase
  tainted_by_errors : Option Unit

/-- Body::new. The assert on the local count becomes an Option; the
is_polymorphic flag is computed by the external type-system query
has_non_region_param, supplied here as a parameter. -/
def Body.new (source : Unit) (basic_blocks : List (BasicBlockData α))
    (source_scopes : List Unit) (local_decls : List LocalDecl)
    (user_type_annotations : List Unit) (arg_count : Nat)
    (var_debug_info : List Unit) (span : Span)
    (generator_kind : Option Unit) (tainted_by_errors : Option Unit)
    (has_non_region_param : Bool) : Option (Body α) :=
  if local_decls.length > arg_count then
    some
      { phase := .Built
        pass_count := 0
        source := source
        basic_blocks := basic_blocks
        source_scopes := source_scopes
        generator := generator_kind
        local_decls := local_decls
        user_type_annotations := user_type_annotations
        arg_count := arg_count
        spread_arg := none
        var_debug_info := var_debug_info
        span := span
        required_consts := []
        is_polymorphic := has_non_region_param
        injection_phase := none
        tainted_by_errors := tainted_by_errors }
  else none

/-- Body::new_cfg_only: a partially initialized body containing only the
basic blocks, no LocalDecls (even for the return place), no scopes. -/
def Body.new_cfg_only (basic_blocks : List (BasicBlockData α))
    (has_non_region_param : Bool) : Body α :=
  { phase := .Built
    pass_count := 0
    source := ()
    basic_blocks := basic_blocks
    source_scopes := []
    generator := none
    local_decls := []
    user_type_annotations := []
    arg_count := 0
    spread_arg := none
    span := DUMMY_SP
    required_consts := []
    var_debug_info := []
    is_polymorphic := has_non_region_param
    injection_phase := none
    tainted_by_errors := none }

/-- Body::local_kind, classifying a local purely from its index and
arg_count (the release semantics; the debug assertion is separate). The
parameter named local in the source is index here, matching the let binding
index = local.as_usize(). -/
def Body.local_kind (b : Body α) (index : Nat) : LocalKind :=
  if index = 0 then .ReturnPointer
  else if index < b.arg_count + 1 then .Arg
  else .Temp

/-- The debug assertion inside Body::local_kind for index 0: the return
place declaration exists and is mutable. -/
def Body.local_kind_return_place_assert (b : Body α) : Prop :=
  (b.local_decls.get? 0).map LocalDecl.mutability = some .Mut

/-- Body::stmt_at. Either becomes Sum; indexing a missing block or reading
an unset terminator (panic) become none. -/
def Body.stmt_at (b : Body α) (location : Location) :
    Option (Statement α ⊕ Terminator) :=
  match b.basic_blocks.get? location.block with
  | none => none
  | some block_data =>
    match block_data.statements.get? location.statement_index with
    | some s => some (Sum.inl s)
    | none => block_data.terminator.map Sum.inr

/-- Body::should_skip: skip while the running phase is less than the
injection phase. -/
def Body.should_skip (b : Body α) : Bool :=
  match b.injection_phase with
  | none => false
  | some injection_phase => decide (MirPhase.lt b.phase injection_phase)

/-! ### Vec primitives used by expand_statements -/

/-- Vec::swap on a list; both indices are in bounds at every use site. -/
def listSwap (l : List β) (i j : Nat) : List β :=
  match l.get? i, l.get? j with
  | some x, some y => (l.set i y).set j x
  | _, _ => l

/-- Vec::splice replacing the range from start (inclusive) to stop
(exclusive) with the given replacement elements. -/
def spliceList (l : List β) (start stop : Nat) (xs : List β) : List β :=
  l.take start ++ xs ++ l.drop stop

/-- Vec::resize to length n with the given filler (at every use site n is
at least the current length, so this only appends). -/
def listResize (l : List β) (n : Nat) (filler : β) : List β :=
  l.take n ++ List.replicate (n - l.length) filler

/-! ### BasicBlockData::expand_statements -/

/-- The first loop of expand_statements: rewrite each statement in place
with the first replacement (or a nop when there are zero replacements),
record the splice of the remaining replacements at position
i + 1 + extra_stmts, and accumulate extra_stmts. Returns the rewritten
statements, the splices in push order, and the final extra_stmts. -/
def expandGather (f : Statement α → Option (List (Statement α))) :
    List (Statement α) → Nat → Nat →
    List (Statement α) × List (Nat × List (Statement α)) × Nat
  | [], _i, extra_stmts => ([], [], extra_stmts)
  | s :: tl, i, extra_stmts =>
    match f s with
    | none =>
      let r := expandGather f tl (i + 1) extra_stmts
      (s :: r.1, r.2)
    | some new_stmts =>
      match new_stmts with
      | [] =>
        let r := expandGather f tl (i + 1) extra_stmts
        (s.make_nop :: r.1, r.2)
      | first :: remaining =>
        if 0 < remaining.length then
          let r := expandGather f tl (i + 1) (extra_stmts + remaining.length)
          (first :: r.1, (i + 1 + extra_stmts, remaining) :: r.2.1, r.2.2)
        else
          let r := expandGather f tl (i + 1) extra_stmts
          (first :: r.1, r.2)

/-- The while loop of the splicing phase: while gap.end is above the splice
end, decrement both gap bounds and swap the element just before the gap to
its end. Since gap.end decreases by one per iteration and the splice end is
fixed, the loop runs exactly gap.end - splice_end times; that count is the
structural recursion argument here. -/
def shiftGo : Nat → List β → Nat → Nat → List β × Nat × Nat
  | 0, l, gapStart, gapStop => (l, gapStart, gapStop)
  | n + 1, l, gapStart, gapStop =>
      shiftGo n (listSwap l (gapStart - 1) (gapStop - 1)) (gapStart - 1) (gapStop - 1)

def shiftLoop (l : List β) (gapStart gapStop spliceEnd : Nat) :
    List β × Nat × Nat :=
  shiftGo (gapStop - spliceEnd) l gapStart gapStop

/-- The second loop of expand_statements, over the splices in reverse order:
slide the gap left past the elements that belong after this splice, write
the spliced statements into the tail of the gap, and shrink the gap. -/
def applySplices : List β → Nat → Nat → List (Nat × List β) → List β
  | l, _gapStart, _gapStop, [] => l
  | l, gapStart, gapStop, (splice_start, new_stmts) :: tl =>
    let splice_end := splice_start + new_stmts.length
    let r := shiftLoop l gapStart gapStop splice_end
    applySplices (spliceList r.1 splice_start splice_end new_stmts) r.2.1 splice_start tl

/-- BasicBlockData::expand_statements, translated from the source. -/
def BasicBlockData.expand_statements (bb : BasicBlockData α)
    (f : Statement α → Option (List (Statement α))) : BasicBlockData α :=
  let r := expandGather f bb.statements 0 0
  let stmts := r.1
  let splices := r.2.1
  let extra_stmts := r.2.2
  let gapStart := stmts.length
  let gapStop := stmts.length + extra_stmts
  let resized :=
    listResize stmts gapStop
      { source_info := SourceInfo.outermost DUMMY_SP, kind := .Nop }
  { bb with statements := applySplices resized gapStart gapStop splices.reverse }

/-- The replacement chunk contributed by one original statement: kept as is
when the pass returns none, a single nop for zero replacements, the
replacements themselves otherwise. Stated from the specified contract of
expand_statements, for comparison with the translated implementation. -/
def expandChunk (f : Statement α → Option (List (Statement α)))
    (s : Statement α) : List (Statement α) :=
  match f s with
  | none => [s]
  | some [] => [s.make_nop]
  | some (x :: xs) => x :: xs

/-- The specified result of expand_statements: the per-statement chunks,
concatenated in original order. -/
def expandSpec (f : Statement α → Option (List (Statement α)))
    (stmts : List (Statement α)) : List (Statement α) :=
  stmts.flatMap (expandChunk f)

/-! ### Location queries -/

/-- Modelled from the spec: the predecessors cache of the graph store (the
basic_blocks module is not among the sources here) maps each block to the
blocks with a terminator edge into it. -/
def Body.predecessors (b : Body α) (block : Nat) : List Nat :=
  (List.range b.basic_blocks.length).filter fun p =>
    match (b.basic_blocks.get? p).bind BasicBlockData.terminator with
    | some t => block ∈ t.successors
    | none => false

/-- The worklist loop of Location::is_predecessor_of, with fuel making the
recursion structural. The queue is a Vec popped from the back; the visited
set is a list. Pops a block; an already visited block is skipped, a newly
visited block has its predecessors queued and is compared against the
target block, short-circuiting true on a match. An exhausted queue yields
false; exhausted fuel yields none. -/
def isPredSearch (preds : Nat → List Nat) (target : Nat) :
    Nat → List Nat → List Nat → Option Bool
  | 0, _queue, _visited => none
  | fuel + 1, queue, visited =>
    match queue.getLast? with
    | none => some false
    | some block =>
      if block ∈ visited then isPredSearch preds target fuel queue.dropLast visited
      else if target = block then some true
      else
        isPredSearch preds target fuel
          (queue.dropLast ++ preds block) (block :: visited)

/-- An upper bound on the work of the search: the queue plus the total size
of all predecessor lists of unvisited blocks. -/
def unvisitedWeight (preds : Nat → List Nat) (n : Nat) (visited : List Nat) : Nat :=
  ∑ b ∈ (Finset.range n).filter (fun b => b ∉ visited), (preds b).length

/-- Location::is_predecessor_of. The fuel handed to the worklist loop is one
more than the loop can ever consume, as proved below. -/
def Location.is_predecessor_of (self other : Location) (body : Body α) :
    Option Bool :=
  if self.block = other.block ∧ self.statement_index < other.statement_index then
    some true
  else
    let queue := body.predecessors other.block
    isPredSearch body.predecessors self.block
      (queue.length + unvisitedWeight body.predecessors body.basic_blocks.length [] + 1)
      queue []

/-- Location::dominates, with the dominator tree abstracted to its query
relation on blocks. -/
def Location.dominates (self other : Location) (dominates_block : Nat → Nat → Bool) :
    Bool :=
  if self.block = other.block then
    decide (self.statement_index ≤ other.statement_index)
  else
    dominates_block self.block other.block

/-! ### Counting helpers and concrete sample inputs used by the theorems -/

/-- How many statements the pass maps to exactly k replacements. -/
def replCount (f : Statement α → Option (List (Statement α)))
    (k : Nat) (stmts : List (Statement α)) : Nat :=
  stmts.countP fun s => decide ((f s).map List.length = some k)

/-- The total number of extra (beyond-the-first) replacement statements. -/
def extraSum (f : Statement α → Option (List (Statement α)))
    (stmts : List (Statement α)) : Nat :=
  (stmts.map fun s =>
    match f s with
    | none => 0
    | some l => l.length - 1).sum

/-- A local declaration with immutable binding, used as sample input. -/
def immutDecl : LocalDecl :=
  { mutability := .Not
    local_info := .Clear
    internal := false
    ty := ()
    user_ty := none
    source_info := { span := 0, scope := 0 } }

/-- Sample payload encoder for Nat: one byte holding the value. -/
def encNat (n : Nat) : List Nat := [n]

/-- Sample payload decoder for Nat, inverse of encNat. -/
def decNat : List Nat → Option (Nat × List Nat)
  | [] => none
  | n :: rest => some (n, rest)

/-- A sample statement over the Unit payload. -/
def unitStmt : Statement Unit :=
  { source_info := { span := 0, scope := 0 }, kind := .Other () }

/-- A one-statement block used as concrete counterexample input. -/
def c3Block : BasicBlockData Unit :=
  { statements := [unitStmt], terminator := none, is_cleanup := false }

/-- A pass mapping every statement to zero replacements. -/
def c3f : Statement Unit → Option (List (Statement Unit)) :=
  fun _ => some []

/-- A sample terminator with no successors. -/
def unitTerm : Terminator :=
  { source_info := { span := 0, scope := 0 }, successors := [] }

/-- A sample body with a single two-statement block, terminator set. -/
def sampleBody : Body Unit :=
  Body.new_cfg_only
    [{ statements := [unitStmt, unitStmt], terminator := some unitTerm,
       is_cleanup := false }] false

/-- A sample cyclic body: block 0 and block 1 branch to each other. -/
def cyclicBody : Body Unit :=
  Body.new_cfg_only
    [{ statements := [unitStmt],
       terminator := some { source_info := { span := 0, scope := 0 }, successors := [1] },
       is_cleanup := false },
     { statements := [],
       terminator := some { source_info := { span := 0, scope := 0 }, successors := [0] },
       is_cleanup := false }] false

/-- The shape of the statement list while the splices are being applied,
read off the splice list processed back to front: with n elements settled
before the gap and a gap of g elements, each splice (p, xs) ends exactly at
the current gap, lands at least one position past the start, and leaves a
smaller state for the earlier splices. -/
def SplicesOK : Nat → Nat → List (Nat × List β) → Prop
  | _n, g, [] => g = 0
  | n, g, (p, xs) :: tl =>
    xs ≠ [] ∧ xs.length ≤ g ∧ g < p + xs.length ∧ p + xs.length - g ≤ n ∧
    SplicesOK (p + xs.length - g) (g - xs.length) tl

/-- The functional reading of the splice phase: processing the splices back
to front, each splice (p, xs) inserts xs after position p + xs.length - g of
the settled prefix. -/
def weave : List β → Nat → List (Nat × List β) → List β
  | A, _g, [] => A
  | A, g, (p, xs) :: tl =>
    weave (A.take (p + xs.length - g)) (g - xs.length) tl
      ++ xs ++ A.drop (p + xs.length - g)

/-! ## Theorems -/

/-- Character-level fact: Char.ofNat inverts toNat below the surrogate range. -/
theorem toNat_ofNat_valid (m : Nat) (h : m < 55296) : (Char.ofNat m).toNat = m := by
  unfold Char.ofNat
  split
  · rfl
  · exact absurd (Or.inl h) (by assumption)

theorem asciiLowerChar_idem (c : Char) :
    asciiLowerChar (asciiLowerChar c) = asciiLowerChar c := by
  unfold asciiLowerChar
  by_cases h : 65 ≤ c.toNat ∧ c.toNat ≤ 90
  · rw [if_pos h, if_neg]
    intro hcon
    have hv : (Char.ofNat (c.toNat + 32)).toNat = c.toNat + 32 :=
      toNat_ofNat_valid _ (by omega)
    rw [hv] at hcon
    omega
  · rw [if_neg h, if_neg h]

theorem asciiLower_idem (s : String) : asciiLower (asciiLower s) = asciiLower s := by
  unfold asciiLower
  refine congrArg String.mk ?_
  rw [List.map_map]
  exact List.map_congr_left fun c _ => asciiLowerChar_idem c

theorem analysisParse_lower (s : String) :
    AnalysisPhase.parse (some (asciiLower s)) = AnalysisPhase.parse (some s) := by
  simp only [AnalysisPhase.parse]
  rw [asciiLower_idem]

theorem runtimeParse_lower (s : String) :
    RuntimePhase.parse (some (asciiLower s)) = RuntimePhase.parse (some s) := by
  simp only [RuntimePhase.parse]
  rw [asciiLower_idem]

/-- C1: Body::should_skip is true exactly when the injection phase is
present and strictly above the current phase (phases compared through
phase_index), and false otherwise, in particular when it is none. -/
theorem should_skip_iff {α : Type} (b : Body α) :
    b.should_skip = true ↔
      ∃ ip, b.injection_phase = some ip ∧
        MirPhase.phase_index b.phase < MirPhase.phase_index ip := by
  unfold Body.should_skip
  cases h : b.injection_phase with
  | none => simp [h]
  | some ip => simp [h, MirPhase.lt]

/-- C7: MirPhase::phase_index is strictly increasing along the canonical
phase order Built, Analysis Initial, Analysis PostCleanup, Runtime Initial,
Runtime PostCleanup, Runtime Optimized. -/
theorem phase_index_strictly_increasing :
    MirPhase.phase_index .Built < MirPhase.phase_index (.Analysis .Initial) ∧
    MirPhase.phase_index (.Analysis .Initial)
      < MirPhase.phase_index (.Analysis .PostCleanup) ∧
    MirPhase.phase_index (.Analysis .PostCleanup)
      < MirPhase.phase_index (.Runtime .Initial) ∧
    MirPhase.phase_index (.Runtime .Initial)
      < MirPhase.phase_index (.Runtime .PostCleanup) ∧
    MirPhase.phase_index (.Runtime .PostCleanup)
      < MirPhase.phase_index (.Runtime .Optimized) := by
  decide

/-- C5: the ClearCrossCrate envelope round-trips Set and Clear through a
non-clearing channel, always decodes to Clear with zero bytes on the wire
through a clearing channel, and uses one discriminant byte (0 for Clear, 1
for Set followed by the payload) when not cleared. -/
theorem clear_cross_crate_roundtrip {T : Type} (encT : T → List Nat)
    (decT : List Nat → Option (T × List Nat)) (v : T) (tail : List Nat)
    (hT : decT (encT v ++ tail) = some (v, tail)) :
    ClearCrossCrate.decode false decT
        (ClearCrossCrate.encode false encT (.Set v) ++ tail) = some (.Set v, tail) ∧
    (∀ rest : List Nat,
        ClearCrossCrate.decode false decT
          (ClearCrossCrate.encode false encT (.Clear (T := T)) ++ rest)
          = some (.Clear, rest)) ∧
    (∀ w : ClearCrossCrate T, ClearCrossCrate.encode true encT w = []) ∧
    (∀ bytes : List Nat,
        ClearCrossCrate.decode true decT bytes = some (.Clear, bytes)) ∧
    ClearCrossCrate.encode false encT (.Set v) = TAG_CLEAR_CROSS_CRATE_SET :: encT v ∧
    ClearCrossCrate.encode false encT (.Clear (T := T))
      = [TAG_CLEAR_CROSS_CRATE_CLEAR] := by
  refine ⟨?_, ?_, ?_, ?_, rfl, rfl⟩
  · simp [ClearCrossCrate.encode, ClearCrossCrate.decode,
      TAG_CLEAR_CROSS_CRATE_SET, TAG_CLEAR_CROSS_CRATE_CLEAR, hT]
  · intro rest
    simp [ClearCrossCrate.encode, ClearCrossCrate.decode,
      TAG_CLEAR_CROSS_CRATE_SET, TAG_CLEAR_CROSS_CRATE_CLEAR]
  · intro w
    rfl
  · intro bytes
    rfl

theorem clear_cross_crate_roundtrip_witness :
    ClearCrossCrate.decode false decNat
        (ClearCrossCrate.encode false encNat (.Set 5) ++ [7]) = some (.Set 5, [7]) :=
  (clear_cross_crate_roundtrip encNat decNat 5 [7] (by rfl)).1

/-- C6: for a block with its terminator set and a location index within
0..=k (k the statement count), stmt_at yields the statement at the index
when the index is below k, the terminator when it equals k, and can never
yield both. -/
theorem stmt_at_spec {α : Type} (b : Body α) (loc : Location)
    (blk : BasicBlockData α) (t : Terminator)
    (hb : b.basic_blocks.get? loc.block = some blk)
    (ht : blk.terminator = some t)
    (hk : loc.statement_index ≤ blk.statements.length) :
    (∀ h : loc.statement_index < blk.statements.length,
        b.stmt_at loc = some (Sum.inl (blk.statements.get ⟨loc.statement_index, h⟩))) ∧
    (loc.statement_index = blk.statements.length →
        b.stmt_at loc = some (Sum.inr t)) ∧
    (∀ s u, b.stmt_at loc = some (Sum.inl s) →
        b.stmt_at loc = some (Sum.inr u) → False) := by
  refine ⟨?_, ?_, ?_⟩
  · intro h
    simp only [Body.stmt_at, hb]
    rw [List.get?_eq_get h]
  · intro h
    have hnone : blk.statements.get? loc.statement_index = none := by
      rw [List.get?_eq_none]
      omega
    simp only [Body.stmt_at, hb]
    rw [hnone, ht]
    rfl
  · intro s u h1 h2
    rw [h1] at h2
    simp at h2

theorem stmt_at_spec_witness :
    sampleBody.stmt_at { block := 0, statement_index := 1 }
        = some (Sum.inl unitStmt) ∧
    sampleBody.stmt_at { block := 0, statement_index := 2 }
        = some (Sum.inr unitTerm) := by
  have h1 := stmt_at_spec sampleBody { block := 0, statement_index := 1 }
    { statements := [unitStmt, unitStmt], terminator := some unitTerm,
      is_cleanup := false } unitTerm rfl rfl (by decide)
  have h2 := stmt_at_spec sampleBody { block := 0, statement_index := 2 }
    { statements := [unitStmt, unitStmt], terminator := some unitTerm,
      is_cleanup := false } unitTerm rfl rfl (by decide)
  exact ⟨h1.1 (by decide), h2.2.1 (by decide)⟩

/-- C10: for a location whose index lies strictly beyond the statement
count of its (terminator-set) block, stmt_at does not fail: it yields the
terminator exactly as for an index equal to the count. -/
theorem stmt_at_out_of_range {α : Type} (b : Body α) (loc : Location)
    (blk : BasicBlockData α) (t : Terminator)
    (hb : b.basic_blocks.get? loc.block = some blk)
    (ht : blk.terminator = some t)
    (hk : blk.statements.length < loc.statement_index) :
    b.stmt_at loc = some (Sum.inr t) := by
  have hnone : blk.statements.get? loc.statement_index = none := by
    rw [List.get?_eq_none]
    omega
  simp only [Body.stmt_at, hb]
  rw [hnone, ht]
  rfl

theorem stmt_at_out_of_range_witness :
    sampleBody.stmt_at { block := 0, statement_index := 5 }
        = some (Sum.inr unitTerm) :=
  stmt_at_out_of_range sampleBody { block := 0, statement_index := 5 }
    { statements := [unitStmt, unitStmt], terminator := some unitTerm,
      is_cleanup := false } unitTerm rfl rfl (by decide)

/-- C2, counterexample: Body::new_cfg_only yields a Body with zero locals
and arg_count zero, violating the claimed invariant that every constructed
Body has arg_count strictly below the number of locals. -/
theorem body_invariants_counterexample :
    ¬ ((Body.new_cfg_only (α := Unit) [] false).arg_count
        < (Body.new_cfg_only (α := Unit) [] false).local_decls.length) := by
  decide

/-- C2, amended: every Body returned by Body::new satisfies arg_count
strictly below the number of locals, and classifies local 0 as the return
pointer; Body::new_cfg_only yields a body with no locals and arg_count 0
(still classifying local 0 as return pointer); and neither constructor
establishes mutability of local 0, as Body::new also accepts an immutable
return-place declaration (its mutability is only debug-asserted inside
local_kind). -/
theorem body_new_invariants {α : Type} :
    (∀ (source : Unit) (bbs : List (BasicBlockData α)) (scopes : List Unit)
        (decls : List LocalDecl) (uta : List Unit) (ac : Nat) (vdi : List Unit)
        (sp : Span) (gk : Option Unit) (tbe : Option Unit) (hnrp : Bool)
        (b : Body α),
        Body.new source bbs scopes decls uta ac vdi sp gk tbe hnrp = some b →
          b.arg_count < b.local_decls.length ∧
          b.local_kind 0 = .ReturnPointer) ∧
    (∀ (bbs : List (BasicBlockData α)) (hnrp : Bool),
        (Body.new_cfg_only bbs hnrp).arg_count = 0 ∧
        (Body.new_cfg_only bbs hnrp).local_decls.length = 0 ∧
        (Body.new_cfg_only bbs hnrp).local_kind 0 = .ReturnPointer) ∧
    (∃ b : Body α,
        Body.new () [] [] [immutDecl] [] 0 [] 0 none none false = some b ∧
        (b.local_decls.get? 0).map LocalDecl.mutability = some .Not) := by
  refine ⟨?_, ?_, ?_⟩
  · intro source bbs scopes decls uta ac vdi sp gk tbe hnrp b hnew
    unfold Body.new at hnew
    split at hnew
    · cases hnew
      refine ⟨by assumption, rfl⟩
    · cases hnew
  · intro bbs hnrp
    exact ⟨rfl, rfl, rfl⟩
  · refine ⟨?_, ?_, ?_⟩
    · exact
        { phase := .Built, pass_count := 0, source := (), basic_blocks := []
          source_scopes := [], generator := none, local_decls := [immutDecl]
          user_type_annotations := [], arg_count := 0, spread_arg := none
          var_debug_info := [], span := 0, required_consts := []
          is_polymorphic := false, injection_phase := none
          tainted_by_errors := none }
    · rfl
    · rfl

theorem analysisParse_unknown (s : String) (h1 : asciiLower s ≠ "initial")
    (h2 : asciiLower s ≠ "post_cleanup") (h3 : asciiLower s ≠ "post-cleanup")
    (h4 : asciiLower s ≠ "postcleanup") : AnalysisPhase.parse (some s) = none := by
  simp only [AnalysisPhase.parse]

theorem runtimeParse_unknown (s : String) (h1 : asciiLower s ≠ "initial")
    (h2 : asciiLower s ≠ "post_cleanup") (h3 : asciiLower s ≠ "post-cleanup")
    (h4 : asciiLower s ≠ "postcleanup") (h5 : asciiLower s ≠ "optimized") :
    RuntimePhase.parse (some s) = none := by
  simp only [RuntimePhase.parse]

/-- C8: phase-name parsing is case-insensitive in the dialect and phase
strings, accepts the three spellings of PostCleanup, defaults an absent
phase to Initial for the analysis and runtime dialects, refuses any phase
suffix for built, and fails (fatally, modeled as none) on any unrecognized
dialect or phase string. -/
theorem mir_phase_parse_spec :
    (∀ (dialect : String) (phase : Option String),
        MirPhase.parse dialect phase
          = MirPhase.parse (asciiLower dialect) (phase.map asciiLower)) ∧
    (MirPhase.parse "analysis" (some "post_cleanup") = some (.Analysis .PostCleanup) ∧
     MirPhase.parse "analysis" (some "post-cleanup") = some (.Analysis .PostCleanup) ∧
     MirPhase.parse "analysis" (some "postcleanup") = some (.Analysis .PostCleanup) ∧
     MirPhase.parse "runtime" (some "post_cleanup") = some (.Runtime .PostCleanup) ∧
     MirPhase.parse "runtime" (some "post-cleanup") = some (.Runtime .PostCleanup) ∧
     MirPhase.parse "runtime" (some "postcleanup") = some (.Runtime .PostCleanup)) ∧
    (MirPhase.parse "analysis" none = some (.Analysis .Initial) ∧
     MirPhase.parse "runtime" none = some (.Runtime .Initial)) ∧
    (MirPhase.parse "built" none = some .Built ∧
     ∀ s : String, MirPhase.parse "built" (some s) = none) ∧
    (∀ (dialect : String) (phase : Option String),
        asciiLower dialect ≠ "built" → asciiLower dialect ≠ "analysis" →
        asciiLower dialect ≠ "runtime" → MirPhase.parse dialect phase = none) ∧
    (∀ s : String, asciiLower s ≠ "initial" → asciiLower s ≠ "post_cleanup" →
        asciiLower s ≠ "post-cleanup" → asciiLower s ≠ "postcleanup" →
        MirPhase.parse "analysis" (some s) = none ∧
        (asciiLower s ≠ "optimized" → MirPhase.parse "runtime" (some s) = none)) := by
  refine ⟨?_, ⟨rfl, rfl, rfl, rfl, rfl, rfl⟩, ⟨rfl, rfl⟩, ⟨rfl, fun s => rfl⟩, ?_, ?_⟩
  · intro dialect phase
    cases phase with
    | none =>
      show MirPhase.parse dialect none = MirPhase.parse (asciiLower dialect) none
      simp only [MirPhase.parse, asciiLower_idem]
    | some s =>
      show MirPhase.parse dialect (some s)
        = MirPhase.parse (asciiLower dialect) (some (asciiLower s))
      simp only [MirPhase.parse, asciiLower_idem]
      split
      · rfl
      · rw [analysisParse_lower]
      · rw [runtimeParse_lower]
      · rfl
  · intro dialect phase h1 h2 h3
    simp only [MirPhase.parse]
  · intro s h1 h2 h3 h4
    constructor
    · have hred : MirPhase.parse "analysis" (some s)
          = (AnalysisPhase.parse (some s)).map MirPhase.Analysis := rfl
      rw [hred, analysisParse_unknown s h1 h2 h3 h4]
      rfl
    · intro h5
      have hred : MirPhase.parse "runtime" (some s)
          = (RuntimePhase.parse (some s)).map MirPhase.Runtime := rfl
      rw [hred, runtimeParse_unknown s h1 h2 h3 h4 h5]
      rfl

theorem mir_phase_parse_spec_witness :
    MirPhase.parse "Analysis" (some "Post-Cleanup") = some (.Analysis .PostCleanup) ∧
    MirPhase.parse "bogus" none = none ∧
    MirPhase.parse "analysis" (some "bogus") = none ∧
    MirPhase.parse "built" (some "initial") = none := by
  refine ⟨?_, ?_, ?_, ?_⟩
  · rw [mir_phase_parse_spec.1 "Analysis" (some "Post-Cleanup")]
    rfl
  · exact mir_phase_parse_spec.2.2.2.2.1 "bogus" none (by decide) (by decide) (by decide)
  · exact (mir_phase_parse_spec.2.2.2.2.2 "bogus" (by decide) (by decide) (by decide)
      (by decide)).1
  · exact mir_phase_parse_spec.2.2.2.1.2 "initial"

theorem body_new_invariants_witness :
    ∃ b : Body Unit,
      Body.new () [] [] [immutDecl] [] 0 [] 0 none none false = some b ∧
      b.arg_count < b.local_decls.length ∧
      b.local_kind 0 = .ReturnPointer := by
  obtain ⟨b, hb, _⟩ := (body_new_invariants (α := Unit)).2.2
  exact ⟨b, hb, ((body_new_invariants (α := Unit)).1 () [] [] [immutDecl] [] 0 [] 0
    none none false b hb)⟩

/-! ### The splice phase of expand_statements -/

theorem get?_append_cons (P : List β) (x : β) (S : List β) :
    (P ++ x :: S).get? P.length = some x := by
  induction P with
  | nil => rfl
  | cons p tl ih => simpa using ih

theorem set_append_cons (P : List β) (x v : β) (S : List β) :
    (P ++ x :: S).set P.length v = P ++ v :: S := by
  induction P with
  | nil => rfl
  | cons p tl ih => simpa using ih

theorem listSwap_eq (l : List β) (i j : Nat) (x y : β)
    (hx : l.get? i = some x) (hy : l.get? j = some y) :
    listSwap l i j = (l.set i y).set j x := by
  unfold listSwap
  rw [hx, hy]

theorem listSwap_concat (P M S : List β) (x y : β) :
    listSwap (P ++ x :: (M ++ y :: S)) P.length (P.length + (M.length + 1))
      = P ++ y :: (M ++ x :: S) := by
  have hx : (P ++ x :: (M ++ y :: S)).get? P.length = some x := get?_append_cons ..
  have hy : (P ++ x :: (M ++ y :: S)).get? (P.length + (M.length + 1)) = some y := by
    have := get?_append_cons (P ++ x :: M) y S
    simpa [List.length_append, Nat.add_comm, Nat.add_assoc, Nat.add_left_comm] using this
  rw [listSwap_eq _ _ _ _ _ hx hy, set_append_cons]
  have h3 : P.length + (M.length + 1) = (P ++ y :: M).length := by
    simp [Nat.add_comm, Nat.add_assoc, Nat.add_left_comm]
  have h4 : P ++ y :: (M ++ y :: S) = (P ++ y :: M) ++ y :: S := by
    simp
  rw [h3, h4, set_append_cons]
  simp

theorem gapStep (A0 G T : List β) (a : β) :
    ∃ G2 : List β, G2.length = G.length ∧
      listSwap (A0 ++ [a] ++ G ++ T) A0.length (A0.length + G.length)
        = A0 ++ G2 ++ ([a] ++ T) := by
  rcases List.eq_nil_or_concat G with rfl | ⟨G0, y, rfl⟩
  · refine ⟨[], rfl, ?_⟩
    have harr : A0 ++ [a] ++ ([] : List β) ++ T = A0 ++ a :: T := by simp
    have hidx : A0.length + ([] : List β).length = A0.length := by simp
    rw [harr, hidx]
    have hx : (A0 ++ a :: T).get? A0.length = some a := get?_append_cons ..
    rw [listSwap_eq _ _ _ _ _ hx hx, set_append_cons, set_append_cons]
    simp
  · simp only [List.concat_eq_append]
    refine ⟨y :: G0, by simp [Nat.add_comm], ?_⟩
    have harr : A0 ++ [a] ++ (G0 ++ [y]) ++ T = A0 ++ a :: (G0 ++ y :: T) := by simp
    have hlen : A0.length + (G0 ++ [y]).length = A0.length + (G0.length + 1) := by simp
    rw [harr, hlen, listSwap_concat]
    simp

theorem shiftGo_spec (k : Nat) :
    ∀ (A G T : List β), k ≤ A.length →
      ∃ G2 : List β, G2.length = G.length ∧
        shiftGo k (A ++ G ++ T) A.length (A.length + G.length)
          = (A.take (A.length - k) ++ G2 ++ (A.drop (A.length - k) ++ T),
             A.length - k, A.length + G.length - k) := by
  induction k with
  | zero =>
    intro A G T _
    refine ⟨G, rfl, ?_⟩
    simp [shiftGo]
  | succ k ih =>
    intro A G T hk
    rcases List.eq_nil_or_concat A with rfl | ⟨A0, a, rfl⟩
    · simp at hk
    · simp only [List.concat_eq_append] at hk ⊢
      have hlenA : (A0 ++ [a]).length = A0.length + 1 := by simp
      obtain ⟨G2, hG2, hswap⟩ := gapStep A0 G T a
      have hidx1 : (A0 ++ [a]).length - 1 = A0.length := by
        rw [hlenA]
        omega
      have hidx2 : (A0 ++ [a]).length + G.length - 1 = A0.length + G.length := by
        rw [hlenA]
        omega
      have hstep :
          shiftGo (k + 1) (A0 ++ [a] ++ G ++ T) (A0 ++ [a]).length
              ((A0 ++ [a]).length + G.length)
            = shiftGo k (A0 ++ G2 ++ ([a] ++ T)) A0.length (A0.length + G.length) := by
        rw [shiftGo, hidx1, hidx2, hswap]
      have hk0 : k ≤ A0.length := by
        rw [hlenA] at hk
        omega
      obtain ⟨G3, hG3, hrec⟩ := ih A0 G2 ([a] ++ T) hk0
      rw [hG2] at hrec
      refine ⟨G3, by rw [hG3, hG2], ?_⟩
      rw [hstep, hrec]
      have e1 : (A0 ++ [a]).length - (k + 1) = A0.length - k := by
        rw [hlenA]
        omega
      have e2 : (A0 ++ [a]).take (A0.length - k) = A0.take (A0.length - k) := by
        rw [List.take_append_eq_append_take]
        have h0 : A0.length - k - A0.length = 0 := by omega
        rw [h0]
        simp
      have e3 : (A0 ++ [a]).drop (A0.length - k) = A0.drop (A0.length - k) ++ [a] := by
        rw [List.drop_append_eq_append_drop]
        have h0 : A0.length - k - A0.length = 0 := by omega
        rw [h0]
        simp
      have e4 : (A0 ++ [a]).length + G.length - (k + 1) = A0.length + G.length - k := by
        rw [hlenA]
        omega
      rw [e1, e2, e3, e4]
      simp

theorem SplicesOK_mono :
    ∀ (sp : List (Nat × List β)) (n m g : Nat), n ≤ m →
      SplicesOK n g sp → SplicesOK m g sp := by
  intro sp
  cases sp with
  | nil => intro n m g _ h; exact h
  | cons hd tl =>
    intro n m g hnm h
    obtain ⟨h1, h2, h3, h4, h5⟩ := h
    exact ⟨h1, h2, h3, Nat.le_trans h4 hnm, h5⟩

theorem weave_append :
    ∀ (sp : List (Nat × List β)) (A B : List β) (g : Nat),
      SplicesOK A.length g sp → weave (A ++ B) g sp = weave A g sp ++ B := by
  intro sp
  cases sp with
  | nil => intro A B g _; rfl
  | cons hd tl =>
    obtain ⟨p, xs⟩ := hd
    intro A B g hok
    obtain ⟨_h1, _h2, _h3, h4, _h5⟩ := hok
    have htake : (A ++ B).take (p + xs.length - g) = A.take (p + xs.length - g) := by
      rw [List.take_append_eq_append_take]
      have h0 : p + xs.length - g - A.length = 0 := by omega
      rw [h0]
      simp
    have hdrop : (A ++ B).drop (p + xs.length - g)
        = A.drop (p + xs.length - g) ++ B := by
      rw [List.drop_append_eq_append_drop]
      have h0 : p + xs.length - g - A.length = 0 := by omega
      rw [h0]
      simp
    simp only [weave, htake, hdrop]
    simp [List.append_assoc]

theorem applySplices_spec :
    ∀ (spRev : List (Nat × List β)) (A G T : List β),
      SplicesOK A.length G.length spRev →
      applySplices (A ++ G ++ T) A.length (A.length + G.length) spRev
        = weave A G.length spRev ++ T := by
  intro spRev
  induction spRev with
  | nil =>
    intro A G T hok
    have hG : G = [] := List.eq_nil_of_length_eq_zero hok
    subst hG
    simp [applySplices, weave]
  | cons hd tl ih =>
    obtain ⟨p, xs⟩ := hd
    intro A G T hok
    obtain ⟨hne, hle, hgt, hn, htl⟩ := hok
    have hxs0 : 0 < xs.length := List.length_pos.mpr hne
    have hk : A.length + G.length - (p + xs.length)
        = A.length - (p + xs.length - G.length) := by omega
    have hkA : A.length - (p + xs.length - G.length) ≤ A.length := Nat.sub_le ..
    obtain ⟨G2, hG2len, hshift⟩ :=
      shiftGo_spec (A.length - (p + xs.length - G.length)) A G T hkA
    have hnn : A.length - (A.length - (p + xs.length - G.length))
        = p + xs.length - G.length := by omega
    have hgap : A.length + G.length - (A.length - (p + xs.length - G.length))
        = p + xs.length := by omega
    rw [hnn, hgap] at hshift
    simp only [applySplices, shiftLoop, hk, hshift]
    have hlen_take : (A.take (p + xs.length - G.length)).length
        = p + xs.length - G.length := by
      rw [List.length_take]
      omega
    have hsplice :
        spliceList
            (A.take (p + xs.length - G.length) ++ G2
              ++ (A.drop (p + xs.length - G.length) ++ T))
            p (p + xs.length) xs
          = A.take (p + xs.length - G.length) ++ G2.take (G.length - xs.length)
              ++ (xs ++ (A.drop (p + xs.length - G.length) ++ T)) := by
      unfold spliceList
      have htk : (A.take (p + xs.length - G.length) ++ G2
            ++ (A.drop (p + xs.length - G.length) ++ T)).take p
          = A.take (p + xs.length - G.length) ++ G2.take (G.length - xs.length) := by
        rw [List.append_assoc, List.take_append_eq_append_take, hlen_take]
        have h0 : p - (p + xs.length - G.length) = G.length - xs.length := by omega
        rw [h0, List.take_append_eq_append_take]
        have h1 : G.length - xs.length - G2.length = 0 := by omega
        rw [h1, List.take_take]
        have hmin : min p (p + xs.length - G.length) = p + xs.length - G.length :=
          Nat.min_eq_right (by omega)
        rw [hmin]
        simp
      have hdp : (A.take (p + xs.length - G.length) ++ G2
            ++ (A.drop (p + xs.length - G.length) ++ T)).drop (p + xs.length)
          = A.drop (p + xs.length - G.length) ++ T := by
        rw [List.append_assoc, List.drop_append_eq_append_drop, hlen_take]
        have h0 : p + xs.length - (p + xs.length - G.length) = G.length := by omega
        rw [h0, List.drop_append_eq_append_drop, hG2len]
        have h1 : G.length - G.length = 0 := by omega
        rw [h1]
        have h2 : (A.take (p + xs.length - G.length)).drop (p + xs.length) = [] := by
          apply List.drop_eq_nil_of_le
          rw [hlen_take]
          omega
        have h3 : G2.drop G.length = [] := by
          apply List.drop_eq_nil_of_le
          omega
        rw [h2, h3]
        simp
      rw [htk, hdp]
      simp [List.append_assoc]
    rw [hsplice]
    have hlenG2take : (G2.take (G.length - xs.length)).length
        = G.length - xs.length := by
      rw [List.length_take]
      omega
    have hIH := ih (A.take (p + xs.length - G.length))
      (G2.take (G.length - xs.length))
      (xs ++ (A.drop (p + xs.length - G.length) ++ T))
      (by rw [hlen_take, hlenG2take]; exact htl)
    rw [hlen_take, hlenG2take] at hIH
    have hp : p = (p + xs.length - G.length) + (G.length - xs.length) := by omega
    rw [← hp] at hIH
    rw [hIH]
    simp only [weave]
    simp [List.append_assoc]

/-! ### The gather phase of expand_statements -/

theorem expandGather_append (f : Statement α → Option (List (Statement α))) :
    ∀ (l₁ l₂ : List (Statement α)) (i e : Nat),
      expandGather f (l₁ ++ l₂) i e
        = ((expandGather f l₁ i e).1
              ++ (expandGather f l₂ (i + l₁.length) (expandGather f l₁ i e).2.2).1,
           (expandGather f l₁ i e).2.1
              ++ (expandGather f l₂ (i + l₁.length) (expandGather f l₁ i e).2.2).2.1,
           (expandGather f l₂ (i + l₁.length) (expandGather f l₁ i e).2.2).2.2) := by
  intro l₁
  induction l₁ with
  | nil => intro l₂ i e; simp [expandGather]
  | cons s tl ih =>
    intro l₂ i e
    have harith : i + (s :: tl).length = (i + 1) + tl.length := by
      simp [List.length_cons]
      omega
    cases hfs : f s with
    | none =>
      simp only [List.cons_append, expandGather, hfs, List.append_eq]
      rw [ih l₂ (i + 1) e, harith]
    | some l =>
      cases l with
      | nil =>
        simp only [List.cons_append, expandGather, hfs, List.append_eq]
        rw [ih l₂ (i + 1) e, harith]
      | cons first remaining =>
        by_cases h : 0 < remaining.length
        · simp only [List.cons_append, expandGather, hfs, if_pos h, List.append_eq]
          rw [ih l₂ (i + 1) (e + remaining.length), harith]
        · simp only [List.cons_append, expandGather, hfs, if_neg h, List.append_eq]
          rw [ih l₂ (i + 1) e, harith]

theorem expandGather_singleton (f : Statement α → Option (List (Statement α)))
    (s : Statement α) (i e : Nat) :
    expandGather f [s] i e =
      match f s with
      | none => ([s], [], e)
      | some [] => ([s.make_nop], [], e)
      | some (first :: remaining) =>
        if 0 < remaining.length then
          ([first], [(i + 1 + e, remaining)], e + remaining.length)
        else ([first], [], e) := by
  cases hfs : f s with
  | none => simp [expandGather, hfs]
  | some l =>
    cases l with
    | nil => simp [expandGather, hfs]
    | cons first remaining =>
      by_cases h : 0 < remaining.length <;> simp [expandGather, hfs, h]

/-- The whole first phase, read through weave: the rewritten statements
woven with the gathered splices are exactly the concatenation of the
per-statement replacement chunks, and the gathered splices are well formed
for the splice phase. -/
theorem expandWeave (f : Statement α → Option (List (Statement α))) :
    ∀ stmts : List (Statement α),
      (expandGather f stmts 0 0).1.length = stmts.length ∧
      SplicesOK stmts.length (expandGather f stmts 0 0).2.2
        ((expandGather f stmts 0 0).2.1).reverse ∧
      weave (expandGather f stmts 0 0).1 (expandGather f stmts 0 0).2.2
        ((expandGather f stmts 0 0).2.1).reverse = expandSpec f stmts := by
  intro stmts
  induction stmts using List.reverseRecOn with
  | nil => simp [expandGather, SplicesOK, weave, expandSpec]
  | append_singleton init s ih =>
    obtain ⟨ihlen, ihok, ihweave⟩ := ih
    have hsplit := expandGather_append f init [s] 0 0
    rw [expandGather_singleton] at hsplit
    cases hfs : f s with
    | none =>
      simp only [hfs] at hsplit
      rw [hsplit]
      simp only [List.append_nil]
      refine ⟨by simp [ihlen], ?_, ?_⟩
      · exact SplicesOK_mono _ init.length _ _ (by simp) ihok
      · rw [weave_append _ _ _ _ (by rw [ihlen]; exact ihok), ihweave]
        simp [expandSpec, expandChunk, hfs]
    | some l =>
      cases l with
      | nil =>
        simp only [hfs] at hsplit
        rw [hsplit]
        simp only [List.append_nil]
        refine ⟨by simp [ihlen], ?_, ?_⟩
        · exact SplicesOK_mono _ init.length _ _ (by simp) ihok
        · rw [weave_append _ _ _ _ (by rw [ihlen]; exact ihok), ihweave]
          simp [expandSpec, expandChunk, hfs]
      | cons first remaining =>
        by_cases h : 0 < remaining.length
        · simp only [hfs, if_pos h] at hsplit
          rw [hsplit]
          dsimp only
          have hrevs : ((expandGather f init 0 0).2.1
                ++ [(0 + init.length + 1 + (expandGather f init 0 0).2.2, remaining)]).reverse
              = (0 + init.length + 1 + (expandGather f init 0 0).2.2, remaining)
                  :: ((expandGather f init 0 0).2.1).reverse := by
            simp
          rw [hrevs]
          have hlen1 : ((expandGather f init 0 0).1 ++ [first]).length
              = init.length + 1 := by
            simp [ihlen]
          refine ⟨by simp [ihlen], ?_, ?_⟩
          · refine ⟨by simpa using List.length_pos.mp h, by omega, by omega, ?_, ?_⟩
            · simp
              omega
            · have e1 : 0 + init.length + 1 + (expandGather f init 0 0).2.2
                  + remaining.length
                  - ((expandGather f init 0 0).2.2 + remaining.length)
                  = init.length + 1 := by omega
              have e2 : (expandGather f init 0 0).2.2 + remaining.length
                  - remaining.length = (expandGather f init 0 0).2.2 := by omega
              rw [e1, e2]
              exact SplicesOK_mono _ init.length _ _ (by omega) ihok
          · simp only [weave]
            have e1 : 0 + init.length + 1 + (expandGather f init 0 0).2.2
                + remaining.length
                - ((expandGather f init 0 0).2.2 + remaining.length)
                = init.length + 1 := by omega
            have e2 : (expandGather f init 0 0).2.2 + remaining.length
                - remaining.length = (expandGather f init 0 0).2.2 := by omega
            rw [e1, e2]
            have htake : ((expandGather f init 0 0).1 ++ [first]).take (init.length + 1)
                = (expandGather f init 0 0).1 ++ [first] := by
              apply List.take_of_length_le
              rw [hlen1]
            have hdrop : ((expandGather f init 0 0).1 ++ [first]).drop (init.length + 1)
                = [] := by
              apply List.drop_eq_nil_of_le
              rw [hlen1]
            rw [htake, hdrop]
            rw [weave_append _ _ _ _ (by rw [ihlen]; exact ihok), ihweave]
            simp [expandSpec, expandChunk, hfs]
        · simp only [hfs, if_neg h] at hsplit
          rw [hsplit]
          simp only [List.append_nil]
          have hrem : remaining = [] := by
            cases remaining with
            | nil => rfl
            | cons a b => exact absurd (by simp) h
          refine ⟨by simp [ihlen], ?_, ?_⟩
          · exact SplicesOK_mono _ init.length _ _ (by simp) ihok
          · rw [weave_append _ _ _ _ (by rw [ihlen]; exact ihok), ihweave]
            subst hrem
            simp [expandSpec, expandChunk, hfs]

/-- Helper: resizing to the current length plus e appends e fillers. -/
theorem listResize_self_add (l : List β) (e : Nat) (v : β) :
    listResize l (l.length + e) v = l ++ List.replicate e v := by
  unfold listResize
  rw [List.take_of_length_le (Nat.le_add_right ..), Nat.add_sub_cancel_left]

/-- Length-normalized restatement of applySplices_spec. -/
theorem applySplices_run (A G T : List β) (g : Nat) (hg : G.length = g)
    (sp : List (Nat × List β)) (hok : SplicesOK A.length g sp) :
    applySplices (A ++ G ++ T) A.length (A.length + g) sp = weave A g sp ++ T := by
  subst hg
  exact applySplices_spec sp A G T hok

/-- The central equation: expand_statements replaces each statement by its
replacement chunk (kept statement, single nop, or the replacement list),
concatenated in the original order; terminator and cleanup flag are kept. -/
theorem expand_statements_eq (bb : BasicBlockData α)
    (f : Statement α → Option (List (Statement α))) :
    (bb.expand_statements f).statements = expandSpec f bb.statements ∧
    (bb.expand_statements f).terminator = bb.terminator ∧
    (bb.expand_statements f).is_cleanup = bb.is_cleanup := by
  obtain ⟨hlen, hok, hweave⟩ := expandWeave f bb.statements
  refine ⟨?_, rfl, rfl⟩
  have hres : (bb.expand_statements f).statements
      = applySplices
          (listResize (expandGather f bb.statements 0 0).1
            ((expandGather f bb.statements 0 0).1.length
              + (expandGather f bb.statements 0 0).2.2)
            { source_info := SourceInfo.outermost DUMMY_SP, kind := .Nop })
          (expandGather f bb.statements 0 0).1.length
          ((expandGather f bb.statements 0 0).1.length
            + (expandGather f bb.statements 0 0).2.2)
          ((expandGather f bb.statements 0 0).2.1).reverse := rfl
  rw [hres, listResize_self_add]
  have happend :
      (expandGather f bb.statements 0 0).1
          ++ List.replicate (expandGather f bb.statements 0 0).2.2
              ({ source_info := SourceInfo.outermost DUMMY_SP,
                 kind := .Nop } : Statement α)
        = (expandGather f bb.statements 0 0).1
            ++ List.replicate (expandGather f bb.statements 0 0).2.2
                ({ source_info := SourceInfo.outermost DUMMY_SP,
                   kind := .Nop } : Statement α)
            ++ [] := by
    simp
  rw [happend, applySplices_run _ _ _ _ (List.length_replicate _ _) _
    (by rw [hlen]; exact hok)]
  rw [hweave]
  simp

/-! ### Lengths of the specified result -/

theorem expandSpec_length_extra (f : Statement α → Option (List (Statement α))) :
    ∀ stmts : List (Statement α),
      (expandSpec f stmts).length = stmts.length + extraSum f stmts := by
  intro stmts
  induction stmts with
  | nil => rfl
  | cons s tl ih =>
    have hcons : expandSpec f (s :: tl) = expandChunk f s ++ expandSpec f tl := by
      simp [expandSpec]
    have hextra : extraSum f (s :: tl)
        = (match f s with | none => 0 | some l => l.length - 1) + extraSum f tl := by
      simp [extraSum]
    rw [hcons, List.length_append, ih, hextra]
    cases hfs : f s with
    | none =>
      simp [expandChunk, hfs]
      omega
    | some l =>
      cases l with
      | nil =>
        simp [expandChunk, hfs]
        omega
      | cons x xs =>
        simp [expandChunk, hfs]
        omega

theorem expandSpec_length_three (f : Statement α → Option (List (Statement α))) :
    ∀ stmts : List (Statement α),
      (∀ s ∈ stmts, ∃ l, f s = some l ∧
          (l.length = 0 ∨ l.length = 1 ∨ l.length = 3)) →
      (expandSpec f stmts).length = stmts.length + 2 * replCount f 3 stmts := by
  intro stmts
  induction stmts with
  | nil => intro _; rfl
  | cons s tl ih =>
    intro hf
    obtain ⟨l, hl, hcase⟩ := hf s (by simp)
    have htl := ih fun u hu => hf u (by simp [hu])
    have hcons : expandSpec f (s :: tl) = expandChunk f s ++ expandSpec f tl := by
      simp [expandSpec]
    have hcount : replCount f 3 (s :: tl)
        = replCount f 3 tl
          + (if (f s).map List.length = some 3 then 1 else 0) := by
      simp [replCount, List.countP_cons]
    rw [hcons, List.length_append, htl, hcount, hl]
    rcases hcase with h0 | h1 | h3
    · have hnil : l = [] := List.eq_nil_of_length_eq_zero h0
      subst hnil
      simp [expandChunk, hl]
      omega
    · cases l with
      | nil => simp at h1
      | cons x xs =>
        have hxs : xs = [] := by simpa using h1
        subst hxs
        simp [expandChunk, hl]
        omega
    · cases l with
      | nil => simp at h3
      | cons x xs =>
        simp [expandChunk, hl, h3]
        omega

/-- C3, counterexample: for a one-statement block whose pass maps the
statement to zero replacements, the claimed count N - (number mapped to 0)
+ 2 * (number mapped to 3) predicts 0 statements, but expand_statements
leaves 1 (the statement becomes a nop in place, it is not removed). -/
theorem expand_statements_count_counterexample :
    ¬ (((c3Block.expand_statements c3f).statements).length
        = c3Block.statements.length - replCount c3f 0 c3Block.statements
          + 2 * replCount c3f 3 c3Block.statements) := by
  decide

/-- C3, amended: for a pass mapping each statement to 0, 1 or 3
replacements, the resulting block has exactly N + 2 * (number mapped to 3)
statements (statements mapped to zero replacements remain as single nops in
place rather than being removed), and the result is the concatenation of
the per-statement replacement chunks in original order, so no statement
derived from a later original index appears before one derived from an
earlier one. -/
theorem expand_statements_count_amended (bb : BasicBlockData α)
    (f : Statement α → Option (List (Statement α)))
    (hf : ∀ s ∈ bb.statements, ∃ l, f s = some l ∧
        (l.length = 0 ∨ l.length = 1 ∨ l.length = 3)) :
    (bb.expand_statements f).statements = expandSpec f bb.statements ∧
    ((bb.expand_statements f).statements).length
      = bb.statements.length + 2 * replCount f 3 bb.statements := by
  refine ⟨(expand_statements_eq bb f).1, ?_⟩
  rw [(expand_statements_eq bb f).1]
  exact expandSpec_length_three f bb.statements hf

theorem expand_statements_count_amended_witness :
    ((c3Block.expand_statements c3f).statements).length
      = c3Block.statements.length + 2 * replCount c3f 3 c3Block.statements :=
  (expand_statements_count_amended c3Block c3f
    (fun _s _hs => ⟨[], rfl, Or.inl rfl⟩)).2

/-- C4: expand_statements concatenates the per-statement replacement chunks
in original order (so replacements for earlier original statements appear
before those for later ones); a statement mapped to zero replacements
contributes exactly one nop in its original relative slot, so it preserves
the indices of later statements; a statement mapped to a nonempty
replacement list is replaced by exactly that list (in place when it is a
single statement); and the final count is the original count plus the total
number of beyond-the-first replacement statements. -/
theorem expand_statements_protocol (bb : BasicBlockData α)
    (f : Statement α → Option (List (Statement α))) :
    (bb.expand_statements f).statements = expandSpec f bb.statements ∧
    (∀ s : Statement α, f s = some [] → expandChunk f s = [s.make_nop]) ∧
    (∀ (s : Statement α) (l : List (Statement α)),
        f s = some l → l ≠ [] → expandChunk f s = l) ∧
    ((bb.expand_statements f).statements).length
      = bb.statements.length + extraSum f bb.statements := by
  refine ⟨(expand_statements_eq bb f).1, ?_, ?_, ?_⟩
  · intro s hs
    simp [expandChunk, hs]
  · intro s l hsl hne
    cases l with
    | nil => exact absurd rfl hne
    | cons x xs => simp [expandChunk, hsl]
  · rw [(expand_statements_eq bb f).1]
    exact expandSpec_length_extra f bb.statements

theorem expand_statements_protocol_witness :
    expandChunk c3f unitStmt = [Statement.make_nop unitStmt] ∧
    ((c3Block.expand_statements c3f).statements).length
      = c3Block.statements.length + extraSum c3f c3Block.statements :=
  ⟨(expand_statements_protocol c3Block c3f).2.1 unitStmt rfl,
   (expand_statements_protocol c3Block c3f).2.2.2⟩

/-! ### Termination of the predecessor search -/

theorem preds_lt {α : Type} (b : Body α) (blk q : Nat)
    (hq : q ∈ b.predecessors blk) : q < b.basic_blocks.length := by
  unfold Body.predecessors at hq
  exact List.mem_range.mp (List.mem_filter.mp hq).1

theorem unvisitedWeight_insert (preds : Nat → List Nat) (n : Nat)
    (visited : List Nat) (block : Nat) (hn : block < n) (hv : block ∉ visited) :
    unvisitedWeight preds n (block :: visited) + (preds block).length
      = unvisitedWeight preds n visited := by
  unfold unvisitedWeight
  have hfil : (Finset.range n).filter (fun b => b ∉ block :: visited)
      = ((Finset.range n).filter (fun b => b ∉ visited)).erase block := by
    ext x
    simp only [Finset.mem_filter, Finset.mem_erase, Finset.mem_range, List.mem_cons]
    constructor
    · rintro ⟨hx, hx2⟩
      push_neg at hx2
      exact ⟨hx2.1, hx, hx2.2⟩
    · rintro ⟨hx1, hx2, hx3⟩
      refine ⟨hx2, ?_⟩
      push_neg
      exact ⟨hx1, hx3⟩
  rw [hfil]
  exact Finset.sum_erase_add _ _ (by
    simp only [Finset.mem_filter, Finset.mem_range]
    exact ⟨hn, hv⟩)

theorem isPredSearch_terminates (preds : Nat → List Nat) (n target : Nat)
    (hp : ∀ b q, q ∈ preds b → q < n) :
    ∀ (fuel : Nat) (queue visited : List Nat),
      (∀ q ∈ queue, q < n) →
      queue.length + unvisitedWeight preds n visited < fuel →
      isPredSearch preds target fuel queue visited ≠ none := by
  intro fuel
  induction fuel with
  | zero =>
    intro queue visited _ hlt
    omega
  | succ fuel ih =>
    intro queue visited hq hlt
    cases hlast : queue.getLast? with
    | none =>
      simp [isPredSearch, hlast]
    | some block =>
      have hmem : block ∈ queue := List.mem_of_mem_getLast? hlast
      have hne : queue ≠ [] := by
        intro hc
        subst hc
        simp at hlast
      have hqpos : 0 < queue.length := List.length_pos.mpr hne
      have hdrop : queue.dropLast.length = queue.length - 1 := List.length_dropLast queue
      by_cases hvis : block ∈ visited
      · have hres : isPredSearch preds target (fuel + 1) queue visited
            = isPredSearch preds target fuel queue.dropLast visited := by
          simp [isPredSearch, hlast, hvis]
        rw [hres]
        refine ih queue.dropLast visited (fun q hq2 => hq q (List.dropLast_subset queue hq2)) ?_
        omega
      · by_cases htgt : target = block
        · simp [isPredSearch, hlast, hvis, htgt]
        · have hres : isPredSearch preds target (fuel + 1) queue visited
              = isPredSearch preds target fuel
                  (queue.dropLast ++ preds block) (block :: visited) := by
            simp [isPredSearch, hlast, hvis, htgt]
          rw [hres]
          have hblockn : block < n := hq block hmem
          have hw := unvisitedWeight_insert preds n visited block hblockn hvis
          refine ih (queue.dropLast ++ preds block) (block :: visited) ?_ ?_
          · intro q hq2
            rcases List.mem_append.mp hq2 with h1 | h2
            · exact hq q (List.dropLast_subset queue h1)
            · exact hp block q h2
          · rw [List.length_append]
            omega

/-- C9: is_predecessor_of returns true immediately on the same-block
earlier-index fast path, and its worklist search over the predecessor graph
terminates on every body, including bodies whose predecessor graph is
cyclic: the fuel given to the loop (one more than the queue length plus the
total size of all predecessor lists, the most the loop can consume thanks
to the visited set) is never exhausted, so the search always returns a
value, true as soon as the target block is reached and false once the queue
empties. -/
theorem is_predecessor_of_spec {α : Type} :
    (∀ (self other : Location) (body : Body α),
        self.block = other.block → self.statement_index < other.statement_index →
        Location.is_predecessor_of self other body = some true) ∧
    (∀ (self other : Location) (body : Body α),
        ∃ r : Bool, Location.is_predecessor_of self other body = some r) := by
  constructor
  · intro self other body h1 h2
    simp [Location.is_predecessor_of, h1, h2]
  · intro self other body
    unfold Location.is_predecessor_of
    by_cases hfast : self.block = other.block ∧
        self.statement_index < other.statement_index
    · simp [hfast]
    · rw [if_neg hfast]
      have hterm := isPredSearch_terminates body.predecessors
        body.basic_blocks.length self.block
        (fun b q hq => preds_lt body b q hq)
        ((body.predecessors other.block).length
          + unvisitedWeight body.predecessors body.basic_blocks.length [] + 1)
        (body.predecessors other.block) []
        (fun q hq => preds_lt body other.block q hq)
        (by omega)
      cases hres : isPredSearch body.predecessors self.block
          ((body.predecessors other.block).length
            + unvisitedWeight body.predecessors body.basic_blocks.length [] + 1)
          (body.predecessors other.block) [] with
      | none => exact absurd hres hterm
      | some r => exact ⟨r, rfl⟩

theorem is_predecessor_of_spec_witness :
    Location.is_predecessor_of { block := 0, statement_index := 0 }
        { block := 0, statement_index := 1 } cyclicBody = some true ∧
    (∃ r : Bool, Location.is_predecessor_of { block := 0, statement_index := 0 }
        { block := 1, statement_index := 0 } cyclicBody = some r) :=
  ⟨(is_predecessor_of_spec (α := Unit)).1 _ _ cyclicBody rfl (by decide),
   (is_predecessor_of_spec (α := Unit)).2 _ _ cyclicBody⟩

end Mir
